import Mathlib

/-!
Verification of the talk-trace-bot summarization core against its
natural-language specification.

The Go sources are embedded shallowly: strings are `List Char` (Go iterates
runes with `range`), machine integers are `Int`/`Nat`, fallible calls return
`Except`/`Option`, and the stateful scheduler is modelled by explicit state
passing with an oracle for LLM and notifier outcomes.
-/

set_option maxRecDepth 4000
set_option linter.unusedVariables false

namespace TalkTrace

/-! ### Token estimator (`internal/llm/client.go`, `estimateTokens`) -/

/-- The set Go `unicode.IsSpace` recognizes: the Unicode White_Space
property (ASCII whitespace, NEL, NBSP, and the Zs code points). -/
def goIsSpace (c : Char) : Bool :=
  let n := c.toNat
  (0x09 ≤ n && n ≤ 0x0d) || n == 0x20 || n == 0x85 || n == 0xa0 ||
  n == 0x1680 || (0x2000 ≤ n && n ≤ 0x200a) || n == 0x2028 || n == 0x2029 ||
  n == 0x202f || n == 0x205f || n == 0x3000

/-- Number of maximal runs of non-space runes, i.e. `len(strings.Fields(text))`.
The flag records whether the previous rune was part of a word. -/
def countFieldsAux (inWord : Bool) : List Char → Nat
  | [] => 0
  | c :: rest =>
    if goIsSpace c then countFieldsAux false rest
    else (if inWord then 0 else 1) + countFieldsAux true rest

/-- `len(strings.Fields(text))` from the Go standard library. -/
def countFields (text : List Char) : Nat :=
  countFieldsAux false text

/-- Runes in the CJK range `0x4e00 ≤ r ≤ 0x9fff` counted by the estimator. -/
def countChinese (text : List Char) : Nat :=
  text.countP (fun c => 0x4e00 ≤ c.toNat && c.toNat ≤ 0x9fff)

/-- `len(text)` in Go: the UTF-8 byte length of the string. -/
def byteLen (text : List Char) : Nat :=
  (text.map Char.utf8Size).sum

/-- `estimateTokens` from `internal/llm/client.go`.  The Go expression
`int(float64(chineseChars)*1.5 + float64(englishWords)*1.3)` is embedded as
the exact rational floor `(15*c + 13*w) / 10`; both operands are nonnegative,
so Go `int` truncation is a floor, and the sub-ulp float64 rounding error
never affects the properties proved below.  The Go loop that counts Latin
letters is dead code (its result is overwritten by `len(strings.Fields(text))`)
and is therefore not embedded. -/
def estimateTokens (text : List Char) : Nat :=
  let chineseChars := countChinese text
  let englishWords := countFields text
  let tokens := (15 * chineseChars + 13 * englishWords) / 10
  if tokens < byteLen text / 4 then byteLen text / 4 else tokens

/-- Word state after scanning `l`, starting from state `b`. -/
def fieldState (b : Bool) : List Char → Bool
  | [] => b
  | c :: rest => fieldState (!(goIsSpace c)) rest

theorem countFieldsAux_append (b : Bool) (s u : List Char) :
    countFieldsAux b (s ++ u) =
      countFieldsAux b s + countFieldsAux (fieldState b s) u := by
  induction s generalizing b with
  | nil => simp [countFieldsAux, fieldState]
  | cons c rest ih =>
    by_cases h : goIsSpace c = true <;>
      simp [countFieldsAux, fieldState, h, ih, Nat.add_assoc]

theorem countFields_append_le (s u : List Char) :
    countFields s ≤ countFields (s ++ u) := by
  unfold countFields
  rw [countFieldsAux_append]
  exact Nat.le_add_right _ _

theorem countChinese_append (s u : List Char) :
    countChinese (s ++ u) = countChinese s + countChinese u := by
  simp [countChinese, List.countP_append]

theorem byteLen_append (s u : List Char) :
    byteLen (s ++ u) = byteLen s + byteLen u := by
  simp [byteLen]

theorem estimateTokens_eq_max (text : List Char) :
    estimateTokens text =
      max ((15 * countChinese text + 13 * countFields text) / 10)
        (byteLen text / 4) := by
  simp only [estimateTokens]
  split <;> omega

theorem estimateTokens_mono_append (s u : List Char) :
    estimateTokens s ≤ estimateTokens (s ++ u) := by
  rw [estimateTokens_eq_max, estimateTokens_eq_max]
  have h1 : countChinese s ≤ countChinese (s ++ u) := by
    rw [countChinese_append]; exact Nat.le_add_right _ _
  have h2 : countFields s ≤ countFields (s ++ u) := countFields_append_le s u
  have h3 : byteLen s ≤ byteLen (s ++ u) := by
    rw [byteLen_append]; exact Nat.le_add_right _ _
  have hl : (15 * countChinese s + 13 * countFields s) / 10 ≤
      (15 * countChinese (s ++ u) + 13 * countFields (s ++ u)) / 10 := by
    apply Nat.div_le_div_right; omega
  have hr : byteLen s / 4 ≤ byteLen (s ++ u) / 4 := Nat.div_le_div_right h3
  omega

theorem estimateTokens_ge_floor (text : List Char) :
    byteLen text / 4 ≤ estimateTokens text := by
  rw [estimateTokens_eq_max]; omega

/-! ### Decimal rendering (Go `fmt.Sprintf` with verb `%d`) -/

/-- The decimal digit character for `n < 10`. -/
def decDigit (n : Nat) : Char := Char.ofNat (48 + n)

/-- Decimal digits, most significant first; the fuel argument (any bound on
the digit count, here the number itself plus one) keeps the recursion
structural so that concrete values evaluate in the kernel. -/
def natToDigitsAux : Nat → Nat → List Char
  | 0, _ => []
  | fuel + 1, n =>
    if n < 10 then [decDigit n]
    else natToDigitsAux fuel (n / 10) ++ [decDigit (n % 10)]

/-- Decimal digits of a natural number, most significant first. -/
def natToDigits (n : Nat) : List Char := natToDigitsAux (n + 1) n

/-- `fmt.Sprintf` of an `int64` with verb `%d`. -/
def intToDigits (i : Int) : List Char :=
  if i < 0 then '-' :: natToDigits (-i).toNat else natToDigits i.toNat

theorem decDigit_range : ∀ n < 10, 48 ≤ (decDigit n).toNat ∧ (decDigit n).toNat ≤ 57 := by
  decide

theorem natToDigitsAux_chars (fuel : Nat) :
    ∀ n : Nat, ∀ c ∈ natToDigitsAux fuel n, 48 ≤ c.toNat ∧ c.toNat ≤ 57 := by
  induction fuel with
  | zero => intro n c hc; simp [natToDigitsAux] at hc
  | succ fuel ih =>
    intro n c hc
    simp only [natToDigitsAux] at hc
    split at hc
    · rename_i h
      simp only [List.mem_singleton] at hc
      subst hc
      exact decDigit_range n h
    · rename_i hge
      rcases List.mem_append.mp hc with h1 | h1
      · exact ih (n / 10) c h1
      · simp only [List.mem_singleton] at h1
        subst h1
        exact decDigit_range (n % 10) (Nat.mod_lt _ (by omega))

theorem natToDigits_chars (n : Nat) :
    ∀ c ∈ natToDigits n, 48 ≤ c.toNat ∧ c.toNat ≤ 57 :=
  natToDigitsAux_chars (n + 1) n

theorem intToDigits_chars (i : Int) :
    ∀ c ∈ intToDigits i, c = '-' ∨ (48 ≤ c.toNat ∧ c.toNat ≤ 57) := by
  intro c hc
  unfold intToDigits at hc
  split at hc
  · rcases List.mem_cons.mp hc with rfl | hc'
    · exact Or.inl rfl
    · exact Or.inr (natToDigits_chars _ c hc')
  · exact Or.inr (natToDigits_chars _ c hc)

/-! ### Chunker (`internal/llm/client.go`, `splitMessagesIntoChunks`) -/

/-- `ChatMessage` from `internal/llm/client.go` (the topic-based variant,
which carries the message id). -/
structure ChatMessage where
  messageID : Int
  senderID : Int
  senderName : List Char
  text : List Char
deriving Repr, DecidableEq

/-- The canonical one-line rendering
`fmt.Sprintf` of the pattern bracket-sender-bar-id-bracket-space-text
used both by `messagesToPromptText` and by the chunker. -/
def lineOf (m : ChatMessage) : List Char :=
  '[' :: m.senderName ++ '|' :: intToDigits m.messageID ++ ']' :: ' ' :: m.text

/-- `messagesToPromptText`: lines joined with a newline. -/
def messagesToPromptText (msgs : List ChatMessage) : List Char :=
  (List.intersperse ['\n'] (msgs.map lineOf)).flatten

/-- The token accounting the chunker maintains for a chunk: the sum of the
per-line estimates (`currentTokens` in the Go loop). -/
def chunkTokens (chunk : List ChatMessage) : Nat :=
  (chunk.map (fun m => estimateTokens (lineOf m))).sum

/-- The loop of `splitMessagesIntoChunks`: `current` and `currentTokens` are
the chunk being filled; a full chunk is emitted when the next line would
overflow and the chunk is non-empty. -/
def splitGo (maxTokens : Int) : List ChatMessage → List ChatMessage → Nat →
    List (List ChatMessage)
  | [], current, _ => if current = [] then [] else [current]
  | m :: rest, current, currentTokens =>
    let tokens := estimateTokens (lineOf m)
    if ((currentTokens + tokens : Nat) : Int) > maxTokens ∧ current ≠ [] then
      current :: splitGo maxTokens rest [m] tokens
    else
      splitGo maxTokens rest (current ++ [m]) (currentTokens + tokens)

/-- `splitMessagesIntoChunks` from `internal/llm/client.go`; empty input
returns `nil`. -/
def splitMessagesIntoChunks (msgs : List ChatMessage) (maxTokens : Int) :
    List (List ChatMessage) :=
  if msgs = [] then [] else splitGo maxTokens msgs [] 0

theorem splitGo_flatten (maxTokens : Int) (msgs current : List ChatMessage)
    (currentTokens : Nat) :
    (splitGo maxTokens msgs current currentTokens).flatten = current ++ msgs := by
  induction msgs generalizing current currentTokens with
  | nil =>
    simp only [splitGo]
    split <;> simp_all
  | cons m rest ih =>
    simp only [splitGo]
    split
    · simp [ih]
    · simp [ih]

theorem splitGo_chunks (maxTokens : Int) (msgs : List ChatMessage) :
    ∀ current currentTokens, currentTokens = chunkTokens current →
    (current.length ≤ 1 ∨ (chunkTokens current : Int) ≤ maxTokens) →
    ∀ c ∈ splitGo maxTokens msgs current currentTokens,
      c ≠ [] ∧ ((chunkTokens c : Int) ≤ maxTokens ∨ c.length = 1) := by
  induction msgs with
  | nil =>
    intro current currentTokens htok hinv c hc
    simp only [splitGo] at hc
    split at hc
    · simp at hc
    · rename_i hne
      simp only [List.mem_singleton] at hc
      subst hc
      refine ⟨hne, ?_⟩
      rcases hinv with h | h
      · right
        have : c.length ≠ 0 := fun h0 => hne (List.eq_nil_of_length_eq_zero h0)
        omega
      · exact Or.inl h
  | cons m rest ih =>
    intro current currentTokens htok hinv c hc
    simp only [splitGo] at hc
    split at hc
    · rename_i hcond
      rcases List.mem_cons.mp hc with rfl | hc'
      · refine ⟨hcond.2, ?_⟩
        rcases hinv with h | h
        · right
          have : c.length ≠ 0 := fun h0 => hcond.2 (List.eq_nil_of_length_eq_zero h0)
          omega
        · exact Or.inl h
      · exact ih [m] _ (by simp [chunkTokens]) (by simp) c hc'
    · rename_i hcond
      refine ih (current ++ [m]) _ ?_ ?_ c hc
      · simp [chunkTokens, htok]
      · by_cases hcur : current = []
        · subst hcur; left; simp
        · right
          rw [Decidable.not_and_iff_or_not] at hcond
          rcases hcond with h | h
          · push_neg at h
            have heq : chunkTokens (current ++ [m]) =
                currentTokens + estimateTokens (lineOf m) := by
              simp [chunkTokens, htok]
            rw [heq]
            exact h
          · exact absurd hcur (by simpa using h)

/-- Helper: the chunks produced on any input are non-empty and
token-bounded-or-singleton. -/
theorem splitMessagesIntoChunks_chunks (msgs : List ChatMessage)
    (maxTokens : Int) :
    ∀ c ∈ splitMessagesIntoChunks msgs maxTokens,
      c ≠ [] ∧ ((chunkTokens c : Int) ≤ maxTokens ∨ c.length = 1) := by
  intro c hc
  unfold splitMessagesIntoChunks at hc
  split at hc
  · simp at hc
  · exact splitGo_chunks maxTokens msgs [] 0 (by simp [chunkTokens]) (by simp) c hc

/-- Helper: concatenating the chunks restores the input exactly. -/
theorem splitMessagesIntoChunks_flatten (msgs : List ChatMessage)
    (maxTokens : Int) :
    (splitMessagesIntoChunks msgs maxTokens).flatten = msgs := by
  unfold splitMessagesIntoChunks
  split
  · simp_all
  · simpa using splitGo_flatten maxTokens msgs [] 0

/-! ### Topic merger (`internal/llm/client.go`, `mergeMessageIDs`,
`mergeTopicItems`, `mergeTopics`) -/

/-- `topicSubItemJSON` / spec `TopicSubItem`. -/
structure TopicSubItem where
  senderName : String
  description : String
  messageIDs : List Int
deriving Repr, DecidableEq

/-- `topicItemJSON` / spec `TopicItem`. -/
structure TopicItem where
  title : String
  items : List TopicSubItem
deriving Repr, DecidableEq

/-- `topicsSummaryJSON` / spec `SummaryResult`: an ordered sequence of
topics.  The summarizer package declares a structurally identical
`SummaryResult`; one Lean structure embeds both. -/
structure TopicsSummary where
  topics : List TopicItem
deriving Repr, DecidableEq

/-- Insertion into the Go `seen` set (`map[int64]bool`), modelled as a
duplicate-free list; only membership is ever consulted. -/
def addToSet (s : List Int) (id : Int) : List Int :=
  if id ∈ s then s else s ++ [id]

/-- The `seen` map of `mergeMessageIDs` after both fill loops. -/
def buildSeen (a b : List Int) : List Int :=
  (a ++ b).foldl addToSet []

/-- One output loop of `mergeMessageIDs`: append each id still in `seen`,
deleting it so later duplicates are skipped.  Returns the appended ids and
the remaining `seen` set. -/
def collectSeen : List Int → List Int → List Int × List Int
  | seen, [] => ([], seen)
  | seen, id :: rest =>
    if id ∈ seen then
      let p := collectSeen (seen.erase id) rest
      (id :: p.1, p.2)
    else collectSeen seen rest

/-- `mergeMessageIDs` from `internal/llm/client.go`: union of two id lists,
first occurrences of `a` first, then ids of `b` not already emitted. -/
def mergeMessageIDs (a b : List Int) : List Int :=
  (collectSeen (buildSeen a b) a).1 ++
    (collectSeen (collectSeen (buildSeen a b) a).2 b).1

theorem foldl_addToSet_mem (l init : List Int) (x : Int) :
    x ∈ l.foldl addToSet init ↔ x ∈ init ∨ x ∈ l := by
  induction l generalizing init with
  | nil => simp
  | cons y rest ih =>
    simp only [List.foldl_cons, ih, addToSet]
    split <;> rename_i hy
    · constructor
      · rintro (h | h)
        · exact Or.inl h
        · exact Or.inr (List.mem_cons_of_mem _ h)
      · rintro (h | h)
        · exact Or.inl h
        · rcases List.mem_cons.mp h with rfl | h
          · exact Or.inl hy
          · exact Or.inr h
    · simp only [List.mem_append, List.mem_singleton, List.mem_cons]
      tauto

theorem foldl_addToSet_nodup (l : List Int) (init : List Int)
    (h : init.Nodup) : (l.foldl addToSet init).Nodup := by
  induction l generalizing init with
  | nil => exact h
  | cons y rest ih =>
    simp only [List.foldl_cons, addToSet]
    split <;> rename_i hy
    · exact ih init h
    · exact ih _ (by simp [List.nodup_append, h, hy])

theorem buildSeen_mem (a b : List Int) (x : Int) :
    x ∈ buildSeen a b ↔ x ∈ a ∨ x ∈ b := by
  unfold buildSeen
  rw [foldl_addToSet_mem]
  simp

theorem buildSeen_nodup (a b : List Int) : (buildSeen a b).Nodup :=
  foldl_addToSet_nodup _ _ List.nodup_nil

theorem collectSeen_fst_subset (seen l : List Int) :
    ∀ x ∈ (collectSeen seen l).1, x ∈ l := by
  induction l generalizing seen with
  | nil => simp [collectSeen]
  | cons id rest ih =>
    intro x hx
    simp only [collectSeen] at hx
    split at hx
    · rcases List.mem_cons.mp hx with rfl | hx'
      · exact List.mem_cons_self _ _
      · exact List.mem_cons_of_mem _ (ih _ x hx')
    · exact List.mem_cons_of_mem _ (ih _ x hx)

theorem collectSeen_fst_mem (seen l : List Int) (x : Int)
    (hx : x ∈ l) (hs : x ∈ seen) : x ∈ (collectSeen seen l).1 := by
  induction l generalizing seen with
  | nil => simp at hx
  | cons id rest ih =>
    simp only [collectSeen]
    split <;> rename_i hid
    · rcases List.mem_cons.mp hx with rfl | hx'
      · exact List.mem_cons_self _ _
      · by_cases hxi : x = id
        · subst hxi; exact List.mem_cons_self _ _
        · exact List.mem_cons_of_mem _
            (ih _ hx' (List.mem_erase_of_ne hxi |>.mpr hs))
    · rcases List.mem_cons.mp hx with rfl | hx'
      · exact absurd hs hid
      · exact ih _ hx' hs

theorem collectSeen_snd_mem (seen l : List Int) (hs : seen.Nodup) (x : Int) :
    x ∈ (collectSeen seen l).2 ↔ x ∈ seen ∧ x ∉ (collectSeen seen l).1 := by
  induction l generalizing seen with
  | nil => simp [collectSeen]
  | cons id rest ih =>
    simp only [collectSeen]
    split <;> rename_i hid
    · rw [ih _ (hs.erase id)]
      rw [hs.mem_erase_iff]
      simp only [List.mem_cons]
      constructor
      · rintro ⟨⟨hne, hmem⟩, hout⟩
        refine ⟨hmem, ?_⟩
        rintro (rfl | h)
        · exact hne rfl
        · exact hout h
      · rintro ⟨hmem, hout⟩
        refine ⟨⟨?_, hmem⟩, fun h => hout (Or.inr h)⟩
        rintro rfl
        exact hout (Or.inl rfl)
    · exact ih _ hs

theorem collectSeen_snd_nodup (seen l : List Int) (hs : seen.Nodup) :
    (collectSeen seen l).2.Nodup := by
  induction l generalizing seen with
  | nil => exact hs
  | cons id rest ih =>
    simp only [collectSeen]
    split
    · exact ih _ (hs.erase id)
    · exact ih _ hs

theorem collectSeen_fst_of_nodup (seen l : List Int) (hl : l.Nodup)
    (hsub : ∀ y ∈ l, y ∈ seen) : (collectSeen seen l).1 = l := by
  induction l generalizing seen with
  | nil => simp [collectSeen]
  | cons id rest ih =>
    simp only [collectSeen]
    have hid : id ∈ seen := hsub id (List.mem_cons_self _ _)
    rw [if_pos hid]
    have hrest : ∀ y ∈ rest, y ∈ seen.erase id := by
      intro y hy
      have hne : y ≠ id := by
        rintro rfl
        exact (List.nodup_cons.mp hl).1 hy
      exact (List.mem_erase_of_ne hne).mpr (hsub y (List.mem_cons_of_mem _ hy))
    rw [ih _ (List.nodup_cons.mp hl).2 hrest]

theorem collectSeen_fst_filter (seen l : List Int) (hl : l.Nodup)
    (hs : seen.Nodup) :
    (collectSeen seen l).1 = l.filter (fun x => decide (x ∈ seen)) := by
  induction l generalizing seen with
  | nil => simp [collectSeen]
  | cons id rest ih =>
    simp only [collectSeen]
    split <;> rename_i hid
    · dsimp only
      have hfc : List.filter (fun x => decide (x ∈ seen)) (id :: rest) =
          id :: List.filter (fun x => decide (x ∈ seen)) rest := by
        simp [List.filter_cons, hid]
      rw [hfc]
      rw [ih _ (List.nodup_cons.mp hl).2 (hs.erase id)]
      congr 1
      apply List.filter_congr
      intro y hy
      have hne : y ≠ id := by
        rintro rfl
        exact (List.nodup_cons.mp hl).1 hy
      simp [hs.mem_erase_iff, hne]
    · have hfc : List.filter (fun x => decide (x ∈ seen)) (id :: rest) =
          List.filter (fun x => decide (x ∈ seen)) rest := by
        simp [List.filter_cons, hid]
      rw [hfc]
      exact ih _ (List.nodup_cons.mp hl).2 hs

/-- Membership in the merged id list is exactly the union. -/
theorem mergeMessageIDs_mem (a b : List Int) (x : Int) :
    x ∈ mergeMessageIDs a b ↔ x ∈ a ∨ x ∈ b := by
  unfold mergeMessageIDs
  simp only [List.mem_append]
  constructor
  · rintro (h | h)
    · exact Or.inl (collectSeen_fst_subset _ _ x h)
    · exact Or.inr (collectSeen_fst_subset _ _ x h)
  · intro h
    by_cases ha : x ∈ a
    · exact Or.inl (collectSeen_fst_mem _ _ x ha ((buildSeen_mem a b x).mpr (Or.inl ha)))
    · have hb : x ∈ b := by tauto
      right
      apply collectSeen_fst_mem _ _ x hb
      rw [collectSeen_snd_mem _ _ (buildSeen_nodup a b)]
      refine ⟨(buildSeen_mem a b x).mpr (Or.inr hb), fun hmem => ?_⟩
      exact ha (collectSeen_fst_subset _ _ x hmem)

/-- On duplicate-free inputs the merged list is the prior ids followed by
the new ids not already present, in their original order. -/
theorem mergeMessageIDs_nodup_eq (a b : List Int) (ha : a.Nodup)
    (hb : b.Nodup) :
    mergeMessageIDs a b = a ++ b.filter (fun x => decide (x ∉ a)) := by
  unfold mergeMessageIDs
  have hsub : ∀ y ∈ a, y ∈ buildSeen a b := fun y hy =>
    (buildSeen_mem a b y).mpr (Or.inl hy)
  rw [collectSeen_fst_of_nodup _ _ ha hsub]
  rw [collectSeen_fst_filter _ _ hb (collectSeen_snd_nodup _ _ (buildSeen_nodup a b))]
  congr 1
  apply List.filter_congr
  intro y hy
  simp only [decide_eq_decide]
  rw [collectSeen_snd_mem _ _ (buildSeen_nodup a b)]
  rw [collectSeen_fst_of_nodup _ _ ha hsub]
  rw [buildSeen_mem]
  constructor
  · rintro ⟨_, hnot⟩
    exact hnot
  · intro hynot
    exact ⟨Or.inr hy, hynot⟩

/-- The Go maps `oldTopicMap` / `oldItemMap` are built by one pass storing
indices, so a lookup returns the LAST index whose key matches. -/
def lastIdxBy (p : α → Bool) : List α → Option Nat
  | [] => none
  | x :: xs =>
    match lastIdxBy p xs with
    | some i => some (i + 1)
    | none => if p x then some 0 else none

theorem lastIdxBy_none_forall {p : α → Bool} {l : List α}
    (h : lastIdxBy p l = none) : ∀ x ∈ l, ¬ p x = true := by
  induction l with
  | nil => intro x hx; simp at hx
  | cons y ys ih =>
    intro x hx
    simp only [lastIdxBy] at h
    cases hxs : lastIdxBy p ys with
    | some i => rw [hxs] at h; simp at h
    | none =>
      rw [hxs] at h
      by_cases hpy : p y = true
      · rw [if_pos hpy] at h; simp at h
      · rcases List.mem_cons.mp hx with rfl | hx'
        · exact hpy
        · exact ih hxs x hx'

theorem lastIdxBy_spec {p : α → Bool} {l : List α} {i : Nat}
    (h : lastIdxBy p l = some i) :
    ∃ hi : i < l.length, p (l.get ⟨i, hi⟩) = true := by
  induction l generalizing i with
  | nil => simp [lastIdxBy] at h
  | cons x xs ih =>
    simp only [lastIdxBy] at h
    cases hxs : lastIdxBy p xs with
    | some j =>
      rw [hxs] at h
      simp only [Option.some.injEq] at h
      subst h
      obtain ⟨hj, hpj⟩ := ih hxs
      exact ⟨Nat.succ_lt_succ hj, by simpa using hpj⟩
    | none =>
      rw [hxs] at h
      by_cases hpx : p x = true
      · rw [if_pos hpx] at h
        simp only [Option.some.injEq] at h
        subst h
        exact ⟨Nat.succ_pos _, by simpa using hpx⟩
      · rw [if_neg hpx] at h; simp at h

/-- If keys are duplicate-free, `find?` by key locates the unique element
with that key. -/
theorem find?_key_unique {β : Type} [DecidableEq β] (key : α → β)
    {l : List α} (hnd : (l.map key).Nodup) {x : α} (hx : x ∈ l) {k : β}
    (hk : key x = k) :
    l.find? (fun y => decide (key y = k)) = some x := by
  induction l with
  | nil => simp at hx
  | cons y ys ih =>
    simp only [List.map_cons, List.nodup_cons] at hnd
    by_cases hky : key y = k
    · have hxy : x = y := by
        rcases List.mem_cons.mp hx with rfl | hx'
        · rfl
        · exfalso
          apply hnd.1
          rw [hky, ← hk]
          exact List.mem_map_of_mem key hx'
      subst hxy
      simp [List.find?_cons, hky]
    · have hx' : x ∈ ys := by
        rcases List.mem_cons.mp hx with rfl | hx'
        · exact absurd hk hky
        · exact hx'
      rw [List.find?_cons]
      simp only [hky, decide_eq_true_eq, if_neg]
      exact ih hnd.2 hx'

section MergeByKey

variable {β : Type} [DecidableEq β] (key : α → β) (combine : α → α → α) (dflt : α)

/-- One iteration of the Go merge loop: update in place at the mapped index
when the key already exists, else append. -/
def mergeStep (olds cur : List α) (n : α) : List α :=
  match lastIdxBy (fun o => decide (key o = key n)) olds with
  | some i => cur.set i (combine (cur.getD i dflt) n)
  | none => cur ++ [n]

/-- The shared shape of `mergeTopics` and `mergeTopicItems`: copy `olds`,
then fold the merge loop over `news`. -/
def mergeByKey (olds news : List α) : List α :=
  news.foldl (mergeStep key combine dflt olds) olds

/-- What an old element becomes: combined with the matching new element
when one exists, unchanged otherwise. -/
def updBy (news : List α) (o : α) : α :=
  match news.find? (fun n => decide (key n = key o)) with
  | some n => combine o n
  | none => o

/-- The new elements whose key is absent from `olds` (these get appended). -/
def appendedOf (olds news : List α) : List α :=
  news.filter (fun n => !(olds.any (fun o => decide (key o = key n))))

theorem mergeByKey_aux (olds : List α) (news : List α) :
    ∀ p : List α, ((p ++ news).map key).Nodup → (olds.map key).Nodup →
    news.foldl (mergeStep key combine dflt olds)
        (olds.map (updBy key combine p) ++ appendedOf key olds p) =
      olds.map (updBy key combine (p ++ news)) ++
        appendedOf key olds (p ++ news) := by
  induction news with
  | nil => intro p _ _; simp
  | cons n rest ih =>
    intro p hkeys holds
    rw [List.foldl_cons]
    have hpn : ∀ x ∈ p, key x ≠ key n := by
      intro x hxp heq
      rw [List.map_append] at hkeys
      rcases List.nodup_append.mp hkeys with ⟨_, _, hdisj⟩
      refine hdisj (List.mem_map_of_mem key hxp) ?_
      rw [heq]
      exact List.mem_map_of_mem key (List.mem_cons_self _ _)
    have hstep : mergeStep key combine dflt olds
        (olds.map (updBy key combine p) ++ appendedOf key olds p) n =
        olds.map (updBy key combine (p ++ [n])) ++
          appendedOf key olds (p ++ [n]) := by
      unfold mergeStep
      cases hidx : lastIdxBy (fun o => decide (key o = key n)) olds with
      | some i =>
        dsimp only
        obtain ⟨hi, hpi⟩ := lastIdxBy_spec hidx
        simp only [List.get_eq_getElem, decide_eq_true_eq] at hpi
        have hilen : i < (olds.map (updBy key combine p)).length := by
          simpa using hi
        have hgetD : (olds.map (updBy key combine p) ++
            appendedOf key olds p).getD i dflt = updBy key combine p olds[i] := by
          rw [List.getD_append _ _ _ _ hilen, List.getD_eq_getElem _ _ hilen,
            List.getElem_map]
        have hupd : updBy key combine p olds[i] = olds[i] := by
          unfold updBy
          rw [List.find?_eq_none.mpr]
          intro x hxp
          simp only [decide_eq_true_eq]
          rw [hpi]
          exact hpn x hxp
        rw [hgetD, hupd]
        rw [List.set_append, if_pos hilen]
        congr 1
        · apply List.ext_getElem
          · simp
          · intro j hj1 hj2
            simp only [List.length_set, List.length_map] at hj1 hj2
            rw [List.getElem_set, List.getElem_map, List.getElem_map]
            by_cases hij : i = j
            · subst hij
              rw [if_pos rfl]
              unfold updBy
              rw [List.find?_append]
              rw [List.find?_eq_none.mpr (by
                intro x hxp
                simp only [decide_eq_true_eq]
                rw [hpi]
                exact hpn x hxp)]
              rw [Option.none_or]
              have hfind : List.find? (fun m => decide (key m = key olds[i])) [n] =
                  some n := by
                simp [List.find?_cons, hpi]
              rw [hfind]
            · rw [if_neg hij]
              unfold updBy
              rw [List.find?_append]
              have hkey_ne : key olds[j] ≠ key n := by
                intro heq
                apply hij
                have hi2 : i < (olds.map key).length := by simpa using hi
                have hj3 : j < (olds.map key).length := by simpa using hj2
                have hmapeq : (olds.map key).get ⟨i, hi2⟩ =
                    (olds.map key).get ⟨j, hj3⟩ := by
                  simp only [List.get_eq_getElem, List.getElem_map]
                  rw [hpi, heq]
                rw [List.get_eq_getElem, List.get_eq_getElem] at hmapeq
                exact (List.Nodup.getElem_inj_iff holds).mp hmapeq
              have hfind : List.find? (fun m => decide (key m = key olds[j])) [n] =
                  none := by
                have hne : ¬ (key n = key olds[j]) := fun h => hkey_ne h.symm
                simp [List.find?_cons, hne]
              rw [hfind, Option.or_none]
        · unfold appendedOf
          rw [List.filter_append]
          have hf : List.filter
              (fun m => !(olds.any (fun o => decide (key o = key m)))) [n] =
              [] := by
            have hany : olds.any (fun o => decide (key o = key n)) = true :=
              List.any_eq_true.mpr ⟨olds[i], List.getElem_mem hi, by simp [hpi]⟩
            simp [List.filter_cons, hany]
          rw [hf, List.append_nil]
      | none =>
        dsimp only
        have hnone : ∀ o ∈ olds, key o ≠ key n := by
          intro o ho
          have := lastIdxBy_none_forall hidx o ho
          simpa using this
        rw [List.append_assoc]
        congr 1
        · symm
          apply List.map_congr_left
          intro o ho
          unfold updBy
          rw [List.find?_append]
          have hfn : List.find? (fun m => decide (key m = key o)) [n] = none := by
            have hne : ¬ (key n = key o) := fun h => hnone o ho h.symm
            simp [List.find?_cons, hne]
          rw [hfn, Option.or_none]
        · unfold appendedOf
          rw [List.filter_append]
          congr 1
          have hany : olds.any (fun o => decide (key o = key n)) = false := by
            rw [List.any_eq_false]
            intro o ho
            simp [hnone o ho]
          simp [List.filter_cons, hany]
    rw [hstep]
    have hassoc : (p ++ [n]) ++ rest = p ++ n :: rest := by simp
    have := ih (p ++ [n]) (by rw [hassoc]; exact hkeys) holds
    rw [hassoc] at this
    exact this

/-- Characterization of the merge loop on duplicate-free keys: old elements
are combined in place with their matching new element; new keys are appended
at the end in order. -/
theorem mergeByKey_eq (olds news : List α) (holds : (olds.map key).Nodup)
    (hnews : (news.map key).Nodup) :
    mergeByKey key combine dflt olds news =
      olds.map (updBy key combine news) ++ appendedOf key olds news := by
  have h0 : olds.map (updBy key combine ([] : List α)) = olds := by
    have : ∀ o ∈ olds, updBy key combine ([] : List α) o = o := by
      intro o _
      unfold updBy
      simp
    calc olds.map (updBy key combine ([] : List α)) = olds.map id :=
          List.map_congr_left (by simpa using this)
      _ = olds := List.map_id olds
  have h1 : appendedOf key olds ([] : List α) = [] := by
    simp [appendedOf]
  have := mergeByKey_aux key combine dflt olds news [] (by simpa using hnews)
    holds
  rw [h0, h1] at this
  simpa [mergeByKey] using this

end MergeByKey

/-- The in-place item update of `mergeTopicItems` for a matching sender:
keep the new description, union the message ids. -/
def mergeSub (cur n : TopicSubItem) : TopicSubItem :=
  { senderName := n.senderName, description := n.description,
    messageIDs := mergeMessageIDs cur.messageIDs n.messageIDs }

/-- `mergeTopicItems` from `internal/llm/client.go`: merge the items of two
same-titled topics by `sender_name`. -/
def mergeTopicItems (old nw : TopicItem) : TopicItem :=
  { title := nw.title,
    items := mergeByKey (fun i => i.senderName) mergeSub ⟨"", "", []⟩
      old.items nw.items }

/-- The non-nil core of `mergeTopics`: fold the partial topics into a copy
of the accumulated ones, matching by title. -/
def mergeTopicsCore (acc par : TopicsSummary) : TopicsSummary :=
  { topics := mergeByKey (fun t => t.title) mergeTopicItems ⟨"", []⟩
      acc.topics par.topics }

/-- `mergeTopics` from `internal/llm/client.go`, including the nil guards. -/
def mergeTopics : Option TopicsSummary → Option TopicsSummary →
    Option TopicsSummary
  | none, p => p
  | some a, none => some a
  | some a, some p => some (mergeTopicsCore a p)

/-- The sender names of a topic, in order. -/
def sendersOf (t : TopicItem) : List String :=
  t.items.map (fun i => i.senderName)

/-- The topic titles of a summary, in order. -/
def titlesOf (r : TopicsSummary) : List String :=
  r.topics.map (fun t => t.title)

theorem mergeTopicsCore_topics (acc par : TopicsSummary)
    (hat : (titlesOf acc).Nodup) (hpt : (titlesOf par).Nodup) :
    (mergeTopicsCore acc par).topics =
      acc.topics.map (updBy (fun t => t.title) mergeTopicItems par.topics) ++
      appendedOf (fun t => t.title) acc.topics par.topics :=
  mergeByKey_eq _ _ _ _ _ hat hpt

theorem mergeTopicItems_items (old nw : TopicItem)
    (hos : (sendersOf old).Nodup) (hns : (sendersOf nw).Nodup) :
    (mergeTopicItems old nw).items =
      old.items.map (updBy (fun i => i.senderName) mergeSub nw.items) ++
      appendedOf (fun i => i.senderName) old.items nw.items :=
  mergeByKey_eq _ _ _ _ _ hos hns

theorem updBy_title (par : List TopicItem) (t : TopicItem) :
    (updBy (fun t => t.title) mergeTopicItems par t).title = t.title := by
  unfold updBy
  cases hf : par.find? (fun n => decide (n.title = t.title)) with
  | none => rfl
  | some pt =>
    have := List.find?_some hf
    simp only [decide_eq_true_eq] at this
    simpa [mergeTopicItems] using this

/-! ### Display formatter (`internal/summarizer`, `escapeHTML`,
`buildMessageLink`, `FormatSummaryForDisplay`) -/

/-- `strings.ReplaceAll` specialised to a single-character pattern, which is
all `escapeHTML` uses: each occurrence of `c` becomes `r`. -/
def replaceChar (l : List Char) (c : Char) (r : List Char) : List Char :=
  l.flatMap (fun x => if x = c then r else [x])

/-- `escapeHTML` from the summarizer package: four sequential
`strings.ReplaceAll` passes, ampersand first, then angle brackets, then the
double quote.  The apostrophe is NOT escaped by the source. -/
def escapeHTML (text : List Char) : List Char :=
  replaceChar
    (replaceChar
      (replaceChar
        (replaceChar text '&' "&amp;".data)
        '<' "&lt;".data)
      '>' "&gt;".data)
    '"' "&quot;".data

/-- `buildMessageLink`: supergroup deep link, empty for any other id shape. -/
def buildMessageLink (chatID messageID : Int) : List Char :=
  let channelID := -chatID - 1000000000000
  if channelID ≤ 0 then []
  else "https://t.me/c/".data ++ intToDigits channelID ++
    '/' :: intToDigits messageID

/-- One optional link bracket of `FormatSummaryForDisplay`. -/
def formatLinkPart (chatID msgID : Int) : List Char :=
  if buildMessageLink chatID msgID = [] then []
  else " [<a href=\"".data ++ escapeHTML (buildMessageLink chatID msgID) ++
    "\">link</a>]".data

/-- One item line of `FormatSummaryForDisplay`. -/
def formatItem (chatID : Int) (item : TopicSubItem) : List Char :=
  "- <b>".data ++ escapeHTML item.senderName.data ++ "</b> ".data ++
    escapeHTML item.description.data ++
    (item.messageIDs.map (formatLinkPart chatID)).flatten ++ "\n".data

/-- One numbered topic block of `FormatSummaryForDisplay` (Go prints the
0-based loop index plus one). -/
def formatTopic (chatID : Int) (idx : Nat) (topic : TopicItem) : List Char :=
  '\n' :: natToDigits (idx + 1) ++ ". ".data ++ escapeHTML topic.title.data ++
    "\n".data ++ (topic.items.map (formatItem chatID)).flatten

/-- `FormatSummaryForDisplay` from the summarizer package: header plus the
numbered topic blocks; nil or topic-less results yield the empty string. -/
def FormatSummaryForDisplay (result : Option TopicsSummary) (chatID : Int)
    (startDate endDate : List Char) : List Char :=
  match result with
  | none => []
  | some r =>
    if r.topics = [] then []
    else
      "📊 <b>群组总结</b>\n".data ++ "📅 ".data ++ escapeHTML startDate ++
        " 至 ".data ++ escapeHTML endDate ++ " (UTC)\n".data ++
        (r.topics.enum.map (fun p => formatTopic chatID p.1 p.2)).flatten

/-- Head check used by `ltOkB`: a `<` must be immediately followed by one
of the tag heads `b`, `/`, `a` the formatter itself emits. -/
def ltOkHead (c : Char) (rest : List Char) : Bool :=
  if c = '<' then
    match rest with
    | [] => false
    | d :: _ => d = 'b' || d = '/' || d = 'a'
  else true

/-- The safety check: every occurrence of the character `<` is immediately
followed by one of `b`, `/`, `a`, and no occurrence is at the end. -/
def ltOkB : List Char → Bool
  | [] => true
  | c :: rest => ltOkHead c rest && ltOkB rest

theorem ltOkB_of_no_lt {l : List Char} (h : ∀ c ∈ l, c ≠ '<') :
    ltOkB l = true := by
  induction l with
  | nil => rfl
  | cons c rest ih =>
    have hc : c ≠ '<' := h c (List.mem_cons_self _ _)
    simp only [ltOkB, ltOkHead, if_neg hc, Bool.true_and]
    exact ih (fun d hd => h d (List.mem_cons_of_mem _ hd))

theorem ltOkHead_append {c : Char} {rest b : List Char} (h : rest ≠ []) :
    ltOkHead c (rest ++ b) = ltOkHead c rest := by
  unfold ltOkHead
  cases rest with
  | nil => exact absurd rfl h
  | cons d rest' => rfl

theorem ltOkB_append {a b : List Char} (ha : ltOkB a = true)
    (hb : ltOkB b = true) : ltOkB (a ++ b) = true := by
  induction a with
  | nil => simpa using hb
  | cons c rest ih =>
    simp only [ltOkB, Bool.and_eq_true] at ha
    rw [List.cons_append]
    simp only [ltOkB, Bool.and_eq_true]
    cases rest with
    | nil =>
      by_cases hc : c = '<'
      · subst hc
        simp [ltOkHead] at ha
      · constructor
        · simp [ltOkHead, hc]
        · simpa using hb
    | cons d rest' =>
      refine ⟨?_, ih ha.2⟩
      rw [ltOkHead_append (by simp)]
      exact ha.1

theorem ltOkB_flatten {L : List (List Char)}
    (h : ∀ x ∈ L, ltOkB x = true) : ltOkB L.flatten = true := by
  induction L with
  | nil => rfl
  | cons x rest ih =>
    rw [List.flatten_cons]
    exact ltOkB_append (h x (List.mem_cons_self _ _))
      (ih (fun y hy => h y (List.mem_cons_of_mem _ hy)))

theorem ltOkB_no_script (s t : List Char) :
    ltOkB (s ++ '<' :: 's' :: t) = false := by
  induction s with
  | nil => simp [ltOkB, ltOkHead]
  | cons c s' ih =>
    rw [List.cons_append]
    simp only [ltOkB, ih, Bool.and_false]

/-- A string passing `ltOkB` never contains the infix `<script`. -/
theorem ltOkB_not_infix {l : List Char} (h : ltOkB l = true) :
    ¬ "<script".data <:+: l := by
  rintro ⟨s, t, hst⟩
  have : l = s ++ '<' :: 's' :: ("cript".data ++ t) := by
    rw [← hst]
    simp
  rw [this] at h
  rw [ltOkB_no_script] at h
  exact Bool.false_ne_true h

theorem replaceChar_self_not_mem {c : Char} {r : List Char} (hr : c ∉ r)
    (l : List Char) : c ∉ replaceChar l c r := by
  intro hmem
  unfold replaceChar at hmem
  rw [List.mem_flatMap] at hmem
  obtain ⟨x, _, hx⟩ := hmem
  by_cases hxc : x = c
  · rw [if_pos hxc] at hx
    exact hr hx
  · rw [if_neg hxc] at hx
    simp only [List.mem_singleton] at hx
    exact hxc hx.symm

theorem replaceChar_mem {x : Char} {l : List Char} {c : Char} {r : List Char}
    (h : x ∈ replaceChar l c r) : x ∈ l ∨ x ∈ r := by
  unfold replaceChar at h
  rw [List.mem_flatMap] at h
  obtain ⟨y, hy, hx⟩ := h
  by_cases hyc : y = c
  · rw [if_pos hyc] at hx
    exact Or.inr hx
  · rw [if_neg hyc] at hx
    simp only [List.mem_singleton] at hx
    subst hx
    exact Or.inl hy

/-- The escaped output never contains a raw `<`. -/
theorem escapeHTML_no_lt (text : List Char) : '<' ∉ escapeHTML text := by
  unfold escapeHTML
  intro hmem
  rcases replaceChar_mem hmem with h3 | h3
  · rcases replaceChar_mem h3 with h2 | h2
    · exact replaceChar_self_not_mem (by decide) _ h2
    · revert h2; decide
  · revert h3; decide

theorem ltOkB_escapeHTML (text : List Char) :
    ltOkB (escapeHTML text) = true :=
  ltOkB_of_no_lt (fun c hc hlt => escapeHTML_no_lt text (hlt ▸ hc))

theorem digits_ne_lt {n : Nat} {c : Char} (hc : c ∈ natToDigits n) :
    c ≠ '<' := by
  intro h
  have := natToDigits_chars n c hc
  rw [h] at this
  simp at this

theorem intDigits_ne_lt {i : Int} {c : Char} (hc : c ∈ intToDigits i) :
    c ≠ '<' := by
  intro h
  rcases intToDigits_chars i c hc with h1 | h1
  · rw [h] at h1; simp at h1
  · rw [h] at h1; simp at h1

theorem ltOkB_formatLinkPart (chatID msgID : Int) :
    ltOkB (formatLinkPart chatID msgID) = true := by
  unfold formatLinkPart
  split
  · rfl
  · exact ltOkB_append (ltOkB_append (by decide) (ltOkB_escapeHTML _))
      (by decide)

theorem ltOkB_formatItem (chatID : Int) (item : TopicSubItem) :
    ltOkB (formatItem chatID item) = true := by
  unfold formatItem
  refine ltOkB_append (ltOkB_append (ltOkB_append (ltOkB_append
    (ltOkB_append (by decide) (ltOkB_escapeHTML _)) (by decide))
    (ltOkB_escapeHTML _)) ?_) (by decide)
  apply ltOkB_flatten
  intro x hx
  rw [List.mem_map] at hx
  obtain ⟨id, _, rfl⟩ := hx
  exact ltOkB_formatLinkPart chatID id

theorem ltOkB_formatTopic (chatID : Int) (idx : Nat) (topic : TopicItem) :
    ltOkB (formatTopic chatID idx topic) = true := by
  unfold formatTopic
  have hd : ltOkB (natToDigits (idx + 1)) = true :=
    ltOkB_of_no_lt (fun c hc => digits_ne_lt hc)
  rw [List.cons_append]
  rw [List.cons_append]
  rw [List.cons_append]
  simp only [ltOkB, Bool.and_eq_true]
  constructor
  · simp [ltOkHead]
  · have hflat : ltOkB ((topic.items.map (formatItem chatID)).flatten) = true := by
      apply ltOkB_flatten
      intro x hx
      rw [List.mem_map] at hx
      obtain ⟨it, _, rfl⟩ := hx
      exact ltOkB_formatItem chatID it
    exact ltOkB_append (ltOkB_append (ltOkB_append (ltOkB_append hd
      (by decide)) (ltOkB_escapeHTML _)) (by decide)) hflat

/-- The whole formatted output passes the `<`-safety check. -/
theorem ltOkB_format (result : Option TopicsSummary) (chatID : Int)
    (startDate endDate : List Char) :
    ltOkB (FormatSummaryForDisplay result chatID startDate endDate) = true := by
  unfold FormatSummaryForDisplay
  match result with
  | none => rfl
  | some r =>
    dsimp only
    split
    · rfl
    · have hflat : ltOkB ((r.topics.enum.map
          (fun p => formatTopic chatID p.1 p.2)).flatten) = true := by
        apply ltOkB_flatten
        intro x hx
        rw [List.mem_map] at hx
        obtain ⟨p, _, rfl⟩ := hx
        exact ltOkB_formatTopic chatID p.1 p.2
      exact ltOkB_append (ltOkB_append (ltOkB_append (ltOkB_append
        (ltOkB_append (ltOkB_append (by decide) (by decide))
          (ltOkB_escapeHTML _)) (by decide)) (ltOkB_escapeHTML _))
        (by decide)) hflat

/-! ### Retention sweeper (`cleanupMessages` in scheduler.go and
`DeleteBefore` in the message model) -/

/-- `Message` rows as the sweeper sees them; `sentAt` is a UTC timestamp in
seconds (Go `time.Time` has no leap seconds, and UTC has no DST, so one
calendar day is exactly 86400 seconds and `AddDate(0, 0, -k)` subtracts
`k * 86400`). -/
structure Message where
  messageID : Int
  chatID : Int
  sentAt : Int
deriving Repr, DecidableEq

/-- `time.Date(y, m, d, 0, 0, 0, 0, UTC)` of a timestamp: truncation to the
start of its UTC day (floor division; Lean `Int` division is Euclidean,
which is floor division for the positive divisor 86400). -/
def startOfDayUTC (t : Int) : Int := (t / 86400) * 86400

/-- The cutoff `cleanupMessages` computes:
`AddDate(0, 0, -RetentionDays-1)` then truncate to day start. -/
def retentionCutoff (now retentionDays : Int) : Int :=
  startOfDayUTC (now - (retentionDays + 1) * 86400)

/-- `DeleteBefore`: the rows remaining after deleting `sent_at < cutoff`. -/
def deleteBeforeKept (msgs : List Message) (cutoff : Int) : List Message :=
  msgs.filter (fun m => !(decide (m.sentAt < cutoff)))

/-- `DeleteBefore`: the rows it deletes. -/
def deleteBeforeDeleted (msgs : List Message) (cutoff : Int) : List Message :=
  msgs.filter (fun m => decide (m.sentAt < cutoff))

/-- `cleanupMessages` from scheduler.go: the store contents after the
sweep. -/
def cleanupMessages (now retentionDays : Int) (msgs : List Message) :
    List Message :=
  deleteBeforeKept msgs (retentionCutoff now retentionDays)

theorem retentionCutoff_eq (now retentionDays : Int) :
    retentionCutoff now retentionDays =
      startOfDayUTC now - (retentionDays + 1) * 86400 := by
  unfold retentionCutoff startOfDayUTC
  have h : (now - (retentionDays + 1) * 86400) / 86400 =
      now / 86400 - (retentionDays + 1) := by
    have := Int.add_mul_ediv_right now (-(retentionDays + 1))
      (show (86400 : Int) ≠ 0 by norm_num)
    calc (now - (retentionDays + 1) * 86400) / 86400
        = (now + -(retentionDays + 1) * 86400) / 86400 := by ring_nf
      _ = now / 86400 + -(retentionDays + 1) := this
      _ = now / 86400 - (retentionDays + 1) := by ring
  rw [h]
  ring

/-! ### Scheduler task lifecycle (`internal/scheduler/scheduler.go`) -/

/-- Task statuses from the ent schema. -/
inductive TaskStatus
  | pending
  | processing
  | completed
  | failed
deriving DecidableEq, Repr

/-- The durable task fields the claims are about. -/
structure TaskRow where
  status : TaskStatus
  summaryContent : String
  errorMessage : Option String
deriving DecidableEq, Repr

/-- Errors `processTask` and its phases can return: the `cancelled` error
produced at a cancellation checkpoint, or any other error. -/
inductive SchedErr
  | cancelled
  | other (msg : String)
deriving DecidableEq, Repr

/-- Execution state: a logical step counter (each checkpoint, DB operation,
LLM call and notifier call consumes one step), the durable task row, and
call counters for the oracles. -/
structure ExecSt where
  step : Nat
  task : TaskRow
  llmCalls : Nat
  notifyCalls : Nat
deriving DecidableEq, Repr

/-- Monotone cancellation signal: once fired it stays fired (Go contexts
are never uncancelled). -/
def CtxMono (ctx : Nat → Bool) : Prop :=
  ∀ i j : Nat, i ≤ j → ctx i = true → ctx j = true

/-- The never-cancelled context. -/
def noCancel : Nat → Bool := fun _ => false

def bump (s : ExecSt) : ExecSt := { s with step := s.step + 1 }

/-- Modelled from the spec: DB reads/writes are suspension points that
accept the cancellation signal (§5); the ent-generated store layer (not
under src/) refuses to execute on a cancelled context, returning an error
and performing no write.  Returns whether the write happened. -/
def dbUpdate (ctx : Nat → Bool) (f : TaskRow → TaskRow) (s : ExecSt) :
    Bool × ExecSt :=
  if ctx s.step then (false, bump s)
  else (true, bump { s with task := f s.task })

/-- One `SummarizeRange` invocation (counted for the claims about the LLM
being re-invoked). -/
def llmCall (s : ExecSt) : ExecSt :=
  bump { s with llmCalls := s.llmCalls + 1 }

/-- One `notifier.Notify` invocation. -/
def notifyCall (s : ExecSt) : ExecSt :=
  bump { s with notifyCalls := s.notifyCalls + 1 }

/-- Phase A, `generateSummaryForTask`: retry loop around the summarizer.
`outs` lists the oracle outcome of each attempt (the list length is the
effective retry count, default 3): an error, or the rendered summary, with
the empty string standing for the legitimate nothing-to-say outcome.  Each
iteration checks the cancel signal before calling, and again before the
retry sleep. -/
def generateSummaryLoop (ctx : Nat → Bool) :
    List (Except String String) → ExecSt → Except SchedErr String × ExecSt
  | [], s => (Except.error (SchedErr.other "retries exhausted"), s)
  | o :: rest, s =>
    if ctx s.step then (Except.error SchedErr.cancelled, bump s)
    else
      let s1 := llmCall (bump s)
      match o with
      | Except.ok r => (Except.ok r, s1)
      | Except.error m =>
        match rest with
        | [] => (Except.error (SchedErr.other m), s1)
        | _ :: _ =>
          if ctx s1.step then (Except.error SchedErr.cancelled, bump s1)
          else generateSummaryLoop ctx rest (bump s1)

/-- Phase B, `sendTaskNotification`: up to two notifier attempts
(`notifyRetryTimes := 2` is fixed in the source); returns `(sent, err)`
where `err` is only ever the cancellation error — delivery failure is NOT
an error (the task must still complete). -/
def sendLoop (ctx : Nat → Bool) :
    List Bool → ExecSt → (Bool × Option SchedErr) × ExecSt
  | [], s => ((false, none), s)
  | o :: rest, s =>
    if ctx s.step then ((false, some SchedErr.cancelled), bump s)
    else
      let s1 := notifyCall (bump s)
      if o then ((true, none), s1)
      else
        match rest with
        | [] => ((false, none), s1)
        | _ :: _ =>
          if ctx s1.step then ((false, some SchedErr.cancelled), bump s1)
          else sendLoop ctx rest (bump s1)

/-- `sendTaskNotification` with its fixed two attempts. -/
def sendTaskNotification (ctx : Nat → Bool) (n1 n2 : Bool) (s : ExecSt) :
    (Bool × Option SchedErr) × ExecSt :=
  sendLoop ctx [n1, n2] s

/-- `processTask`: Phase A, then persist the summary (`SetSummaryContent`,
errors only logged), then Phase B; on delivery success clear the content.
Delivery exhaustion is success; only cancellation propagates. -/
def processTask (ctx : Nat → Bool) (gen : List (Except String String))
    (n1 n2 : Bool) (s : ExecSt) : Option SchedErr × ExecSt :=
  match generateSummaryLoop ctx gen s with
  | (Except.error e, s') => (some e, s')
  | (Except.ok summary, s') =>
    if summary = "" then (none, s')
    else
      let w := dbUpdate ctx (fun t => { t with summaryContent := summary }) s'
      let sn := sendTaskNotification ctx n1 n2 w.2
      match sn.1.2 with
      | some e => (some e, sn.2)
      | none =>
        if sn.1.1 then
          (none, (dbUpdate ctx (fun t => { t with summaryContent := "" }) sn.2).2)
        else (none, sn.2)

/-- `MarkTaskFailed`. -/
def markFailed (e : SchedErr) (t : TaskRow) : TaskRow :=
  { t with status := TaskStatus.failed,
           errorMessage := some (match e with
             | SchedErr.cancelled => "cancelled"
             | SchedErr.other m => m) }

/-- `MarkTaskCompleted`. -/
def markCompleted (t : TaskRow) : TaskRow :=
  { t with status := TaskStatus.completed }

/-- `ResetTaskToPending`: clears the error, keeps `summary_content`. -/
def resetToPending (t : TaskRow) : TaskRow :=
  { t with status := TaskStatus.pending, errorMessage := none }

/-- The per-task body of the daily-run loop (`executeDailySummaryForRange`
step 3): set `processing`, run `processTask`, then mark failed or
completed. -/
def runTaskFromDaily (ctx : Nat → Bool) (gen : List (Except String String))
    (n1 n2 : Bool) (s : ExecSt) : ExecSt :=
  match dbUpdate ctx (fun t => { t with status := TaskStatus.processing }) s with
  | (false, s1) => s1
  | (true, s1) =>
    match processTask ctx gen n1 n2 s1 with
    | (some e, s2) => (dbUpdate ctx (markFailed e) s2).2
    | (none, s2) => (dbUpdate ctx markCompleted s2).2

/-- The per-task body of `recoverPendingTasks` for a non-stale task: reset
to pending, set processing, then either the delivery-only branch (when the
fetched row has a non-empty `summary_content`) or a full `processTask`. -/
def recoverTaskStep (ctx : Nat → Bool) (gen : List (Except String String))
    (n1 n2 : Bool) (s : ExecSt) : ExecSt :=
  match dbUpdate ctx resetToPending s with
  | (false, s1) => s1
  | (true, s1) =>
    match dbUpdate ctx (fun t => { t with status := TaskStatus.processing }) s1 with
    | (false, s2) => s2
    | (true, s2) =>
      if s.task.summaryContent ≠ "" then
        match sendTaskNotification ctx n1 n2 s2 with
        | ((_, some e), s3) => (dbUpdate ctx (markFailed e) s3).2
        | ((sent, none), s3) =>
          let s4 := if sent then
              (dbUpdate ctx (fun t => { t with summaryContent := "" }) s3).2
            else s3
          (dbUpdate ctx markCompleted s4).2
      else
        match processTask ctx gen n1 n2 s2 with
        | (some e, s3) => (dbUpdate ctx (markFailed e) s3).2
        | (none, s3) => (dbUpdate ctx markCompleted s3).2

/-- `GetPendingOrProcessingTasks`: the rows recovery picks up. -/
def getPendingOrProcessingTasks (tasks : List TaskRow) : List TaskRow :=
  tasks.filter (fun t => decide (t.status = TaskStatus.pending ∨
    t.status = TaskStatus.processing))

/-- The pure retry outcome of Phase A when never cancelled: the first
successful attempt, or the last error after exhausting the list. -/
def firstResult : List (Except String String) → Except SchedErr String
  | [] => Except.error (SchedErr.other "retries exhausted")
  | Except.ok r :: _ => Except.ok r
  | Except.error m :: [] => Except.error (SchedErr.other m)
  | Except.error _ :: rest => firstResult rest

theorem dbUpdate_llm (ctx : Nat → Bool) (f : TaskRow → TaskRow) (s : ExecSt) :
    (dbUpdate ctx f s).2.llmCalls = s.llmCalls := by
  unfold dbUpdate
  split <;> rfl

theorem dbUpdate_notify (ctx : Nat → Bool) (f : TaskRow → TaskRow)
    (s : ExecSt) : (dbUpdate ctx f s).2.notifyCalls = s.notifyCalls := by
  unfold dbUpdate
  split <;> rfl

theorem genLoop_task (ctx : Nat → Bool) (outs : List (Except String String)) :
    ∀ s : ExecSt, (generateSummaryLoop ctx outs s).2.task = s.task := by
  induction outs with
  | nil => intro s; rfl
  | cons o rest ih =>
    intro s
    simp only [generateSummaryLoop]
    split
    · rfl
    · cases o with
      | ok r => rfl
      | error m =>
        cases rest with
        | nil => rfl
        | cons o2 rest2 =>
          dsimp only
          split
          · rfl
          · exact ih _

theorem genLoop_notify (ctx : Nat → Bool)
    (outs : List (Except String String)) :
    ∀ s : ExecSt, (generateSummaryLoop ctx outs s).2.notifyCalls =
      s.notifyCalls := by
  induction outs with
  | nil => intro s; rfl
  | cons o rest ih =>
    intro s
    simp only [generateSummaryLoop]
    split
    · rfl
    · cases o with
      | ok r => rfl
      | error m =>
        cases rest with
        | nil => rfl
        | cons o2 rest2 =>
          dsimp only
          split
          · rfl
          · exact ih _

theorem sendLoop_task (ctx : Nat → Bool) (outs : List Bool) :
    ∀ s : ExecSt, (sendLoop ctx outs s).2.task = s.task := by
  induction outs with
  | nil => intro s; rfl
  | cons o rest ih =>
    intro s
    simp only [sendLoop]
    split
    · rfl
    · split
      · rfl
      · cases rest with
        | nil => rfl
        | cons o2 rest2 =>
          dsimp only
          split
          · rfl
          · exact ih _

theorem sendLoop_llm (ctx : Nat → Bool) (outs : List Bool) :
    ∀ s : ExecSt, (sendLoop ctx outs s).2.llmCalls = s.llmCalls := by
  induction outs with
  | nil => intro s; rfl
  | cons o rest ih =>
    intro s
    simp only [sendLoop]
    split
    · rfl
    · split
      · rfl
      · cases rest with
        | nil => rfl
        | cons o2 rest2 =>
          dsimp only
          split
          · rfl
          · exact ih _

theorem genLoop_noCancel_fst (outs : List (Except String String)) :
    ∀ s : ExecSt, (generateSummaryLoop noCancel outs s).1 =
      firstResult outs := by
  induction outs with
  | nil => intro s; rfl
  | cons o rest ih =>
    intro s
    simp only [generateSummaryLoop, noCancel]
    cases o with
    | ok r => rfl
    | error m =>
      cases rest with
      | nil => rfl
      | cons o2 rest2 =>
        dsimp only
        exact ih _

theorem genLoop_cancelled {ctx : Nat → Bool} (hm : CtxMono ctx)
    (outs : List (Except String String)) :
    ∀ s p, generateSummaryLoop ctx outs s = p →
      p.1 = Except.error SchedErr.cancelled → ctx p.2.step = true := by
  induction outs with
  | nil =>
    intro s p hp h1
    rw [← hp] at h1
    simp [generateSummaryLoop] at h1
  | cons o rest ih =>
    intro s p hp h1
    simp only [generateSummaryLoop] at hp
    split at hp <;> rename_i hc
    · subst hp
      exact hm s.step (s.step + 1) (Nat.le_succ _) hc
    · cases o with
      | ok r => subst hp; simp at h1
      | error m =>
        cases rest with
        | nil => subst hp; simp at h1
        | cons o2 rest2 =>
          dsimp only at hp
          split at hp <;> rename_i hc2
          · subst hp
            exact hm _ _ (Nat.le_succ _) hc2
          · exact ih _ p hp h1

theorem sendLoop_cancelled {ctx : Nat → Bool} (hm : CtxMono ctx)
    (outs : List Bool) :
    ∀ s p, sendLoop ctx outs s = p →
      p.1.2 = some SchedErr.cancelled → ctx p.2.step = true := by
  induction outs with
  | nil =>
    intro s p hp h1
    rw [← hp] at h1
    simp [sendLoop] at h1
  | cons o rest ih =>
    intro s p hp h1
    simp only [sendLoop] at hp
    split at hp <;> rename_i hc
    · subst hp
      exact hm s.step (s.step + 1) (Nat.le_succ _) hc
    · split at hp <;> rename_i ho
      · subst hp; simp at h1
      · cases rest with
        | nil => subst hp; simp at h1
        | cons o2 rest2 =>
          dsimp only at hp
          split at hp <;> rename_i hc2
          · subst hp
            exact hm _ _ (Nat.le_succ _) hc2
          · exact ih _ p hp h1

theorem dbUpdate_status_preserve {f : TaskRow → TaskRow}
    (hf : ∀ t, (f t).status = t.status) (ctx : Nat → Bool) (s : ExecSt) :
    (dbUpdate ctx f s).2.task.status = s.task.status := by
  unfold dbUpdate
  split
  · rfl
  · exact hf s.task

/-- `processTask` never writes the status field: it is the callers that
mark completed or failed. -/
theorem processTask_status (ctx : Nat → Bool)
    (gen : List (Except String String)) (n1 n2 : Bool) (s : ExecSt) :
    (processTask ctx gen n1 n2 s).2.task.status = s.task.status := by
  unfold processTask
  rcases hgl : generateSummaryLoop ctx gen s with ⟨r, s'⟩
  have hts : s'.task = s.task := by
    have h := genLoop_task ctx gen s
    rw [hgl] at h
    exact h
  cases r with
  | error e =>
    dsimp only
    rw [hts]
  | ok summary =>
    dsimp only
    split
    · rw [hts]
    · rcases hsn : sendTaskNotification ctx n1 n2
        (dbUpdate ctx (fun t => { t with summaryContent := summary }) s').2
        with ⟨⟨sent, err⟩, s3⟩
      have hs3 : s3.task = (dbUpdate ctx
          (fun t => { t with summaryContent := summary }) s').2.task := by
        have hsn' : sendLoop ctx [n1, n2] (dbUpdate ctx
            (fun t => { t with summaryContent := summary }) s').2 =
            ((sent, err), s3) := hsn
        have h := sendLoop_task ctx [n1, n2]
          (dbUpdate ctx (fun t => { t with summaryContent := summary }) s').2
        rw [hsn'] at h
        exact h
      have hdb : (dbUpdate ctx (fun t => { t with summaryContent := summary })
          s').2.task.status = s.task.status := by
        have h := dbUpdate_status_preserve
          (f := fun t => { t with summaryContent := summary })
          (fun t => rfl) ctx s'
        rw [h, hts]
      cases err with
      | some e =>
        dsimp only
        rw [hs3, hdb]
      | none =>
        dsimp only
        cases sent with
        | true =>
          rw [if_pos rfl]
          have h2 := dbUpdate_status_preserve
            (f := fun t => { t with summaryContent := "" })
            (fun t => rfl) ctx s3
          rw [h2, hs3, hdb]
        | false =>
          rw [if_neg (by simp)]
          rw [hs3, hdb]

theorem processTask_cancelled {ctx : Nat → Bool} (hm : CtxMono ctx)
    (gen : List (Except String String)) (n1 n2 : Bool) (s : ExecSt)
    (p : Option SchedErr × ExecSt) (hp : processTask ctx gen n1 n2 s = p)
    (h1 : p.1 = some SchedErr.cancelled) : ctx p.2.step = true := by
  unfold processTask at hp
  rcases hgl : generateSummaryLoop ctx gen s with ⟨r, s'⟩
  rw [hgl] at hp
  cases r with
  | error e =>
    dsimp only at hp
    subst hp
    simp only [Option.some.injEq] at h1
    subst h1
    exact genLoop_cancelled hm gen s _ hgl rfl
  | ok summary =>
    dsimp only at hp
    split at hp
    · subst hp; simp at h1
    · rcases hsn : sendTaskNotification ctx n1 n2
        (dbUpdate ctx (fun t => { t with summaryContent := summary }) s').2
        with ⟨⟨sent, err⟩, s3⟩
      rw [hsn] at hp
      cases err with
      | some e =>
        dsimp only at hp
        subst hp
        simp only [Option.some.injEq] at h1
        subst h1
        exact sendLoop_cancelled hm [n1, n2] _ _ hsn rfl
      | none =>
        dsimp only at hp
        cases sent with
        | true =>
          rw [if_pos rfl] at hp
          subst hp
          simp at h1
        | false =>
          rw [if_neg (by simp)] at hp
          subst hp
          simp at h1

/-- Crash-free run of `processTask` with a successful Phase A producing a
non-empty summary and both delivery attempts failing: success is returned,
the persisted summary is retained, and exactly two notifier calls were
made. -/
theorem processTask_noCancel_ok_ff (gen : List (Except String String))
    (summary : String) (hgen : firstResult gen = Except.ok summary)
    (hne : summary ≠ "") (s : ExecSt) :
    (processTask noCancel gen false false s).1 = none ∧
    (processTask noCancel gen false false s).2.task =
      { s.task with summaryContent := summary } ∧
    (processTask noCancel gen false false s).2.notifyCalls =
      s.notifyCalls + 2 := by
  unfold processTask
  rcases hgl : generateSummaryLoop noCancel gen s with ⟨r, s'⟩
  have hr : r = Except.ok summary := by
    have h := genLoop_noCancel_fst gen s
    rw [hgl, hgen] at h
    exact h
  subst hr
  have hts : s'.task = s.task := by
    have h := genLoop_task noCancel gen s
    rw [hgl] at h
    exact h
  have hnc : s'.notifyCalls = s.notifyCalls := by
    have h := genLoop_notify noCancel gen s
    rw [hgl] at h
    exact h
  dsimp only
  rw [if_neg hne]
  refine ⟨?_, ?_, ?_⟩ <;>
    simp [dbUpdate, sendTaskNotification, sendLoop, noCancel, notifyCall,
      bump, hts, hnc]

/-- If cancellation has already fired when `processTask` starts, Phase A's
first checkpoint observes it and the cancelled error propagates out. -/
theorem processTask_cancel_at_entry (ctx : Nat → Bool)
    (gen : List (Except String String)) (hgen : gen ≠ []) (n1 n2 : Bool)
    (s : ExecSt) (hc : ctx s.step = true) :
    (processTask ctx gen n1 n2 s).1 = some SchedErr.cancelled := by
  cases gen with
  | nil => exact absurd rfl hgen
  | cons o rest =>
    unfold processTask
    rcases hgl : generateSummaryLoop ctx (o :: rest) s with ⟨r, s'⟩
    have hr : r = Except.error SchedErr.cancelled := by
      simp only [generateSummaryLoop, if_pos hc] at hgl
      simpa using (congrArg Prod.fst hgl).symm
    subst hr
    rfl

/-- In the recovery branch for a task with a pending summary, the LLM
summarizer is never invoked, under any cancellation schedule. -/
theorem recoverTaskStep_llm (ctx : Nat → Bool)
    (gen : List (Except String String)) (n1 n2 : Bool) (s : ExecSt)
    (h : s.task.summaryContent ≠ "") :
    (recoverTaskStep ctx gen n1 n2 s).llmCalls = s.llmCalls := by
  unfold recoverTaskStep
  rcases h1 : dbUpdate ctx resetToPending s with ⟨ok1, s1⟩
  have e1 : s1.llmCalls = s.llmCalls := by
    have hh := dbUpdate_llm ctx resetToPending s
    rw [h1] at hh
    exact hh
  cases ok1 with
  | false => exact e1
  | true =>
    dsimp only
    rcases h2 : dbUpdate ctx
        (fun t => { t with status := TaskStatus.processing }) s1 with ⟨ok2, s2⟩
    have e2 : s2.llmCalls = s1.llmCalls := by
      have hh := dbUpdate_llm ctx
        (fun t => { t with status := TaskStatus.processing }) s1
      rw [h2] at hh
      exact hh
    cases ok2 with
    | false => exact e2.trans e1
    | true =>
      dsimp only
      rw [if_pos h]
      rcases h3 : sendTaskNotification ctx n1 n2 s2 with ⟨⟨sent, err⟩, s3⟩
      have e3 : s3.llmCalls = s2.llmCalls := by
        have hsn' : sendLoop ctx [n1, n2] s2 = ((sent, err), s3) := h3
        have hh := sendLoop_llm ctx [n1, n2] s2
        rw [hsn'] at hh
        exact hh
      cases err with
      | some e =>
        dsimp only
        rw [dbUpdate_llm]
        exact (e3.trans e2).trans e1
      | none =>
        dsimp only
        cases sent with
        | true =>
          rw [if_pos rfl]
          rw [dbUpdate_llm, dbUpdate_llm]
          exact (e3.trans e2).trans e1
        | false =>
          rw [if_neg (by simp)]
          rw [dbUpdate_llm]
          exact (e3.trans e2).trans e1

/-- Crash-free recovery of a task with a pending summary and a delivery
that succeeds on the first or second attempt: the summary content is
cleared and the task is marked completed. -/
theorem recoverTaskStep_noCancel_sent (gen : List (Except String String))
    (n1 n2 : Bool) (hsent : n1 = true ∨ n2 = true) (s : ExecSt)
    (h : s.task.summaryContent ≠ "") :
    (recoverTaskStep noCancel gen n1 n2 s).task.summaryContent = "" ∧
    (recoverTaskStep noCancel gen n1 n2 s).task.status =
      TaskStatus.completed := by
  unfold recoverTaskStep
  have hdb1 : dbUpdate noCancel resetToPending s =
      (true, bump { s with task := resetToPending s.task }) := rfl
  rw [hdb1]
  dsimp only
  rw [show dbUpdate noCancel (fun t => { t with status := TaskStatus.processing })
    (bump { s with task := resetToPending s.task }) =
    (true, bump { bump { s with task := resetToPending s.task } with
      task := { resetToPending s.task with status := TaskStatus.processing } })
    from rfl]
  dsimp only
  rw [if_pos h]
  rcases hsent with rfl | hn2
  · constructor <;>
      simp [sendTaskNotification, sendLoop, noCancel, notifyCall, bump,
        dbUpdate, markCompleted, resetToPending]
  · cases n1 with
    | true =>
      constructor <;>
        simp [sendTaskNotification, sendLoop, noCancel, notifyCall, bump,
          dbUpdate, markCompleted, resetToPending]
    | false =>
      rw [hn2]
      constructor <;>
        simp [sendTaskNotification, sendLoop, noCancel, notifyCall, bump,
          dbUpdate, markCompleted, resetToPending]

/-- The daily-run caller on a crash-free run where Phase A succeeds with a
non-empty summary and both delivery attempts fail: the task is marked
completed and the summary content is retained. -/
theorem runTaskFromDaily_deliveryFail (gen : List (Except String String))
    (summary : String) (hgen : firstResult gen = Except.ok summary)
    (hne : summary ≠ "") (s : ExecSt) :
    (runTaskFromDaily noCancel gen false false s).task.status =
      TaskStatus.completed ∧
    (runTaskFromDaily noCancel gen false false s).task.summaryContent =
      summary ∧
    (runTaskFromDaily noCancel gen false false s).notifyCalls =
      s.notifyCalls + 2 := by
  unfold runTaskFromDaily
  rw [show dbUpdate noCancel (fun t => { t with status := TaskStatus.processing }) s =
    (true, bump { s with task := { s.task with status := TaskStatus.processing } })
    from rfl]
  dsimp only
  rcases hp : processTask noCancel gen false false
      (bump { s with task := { s.task with status := TaskStatus.processing } })
      with ⟨perr, p2⟩
  obtain ⟨hnone, htask, hnotif⟩ := processTask_noCancel_ok_ff gen summary hgen
    hne (bump { s with task := { s.task with status := TaskStatus.processing } })
  rw [hp] at hnone htask hnotif
  subst hnone
  dsimp only
  dsimp only at htask hnotif
  rw [show dbUpdate noCancel markCompleted p2 =
    (true, bump { p2 with task := markCompleted p2.task }) from rfl]
  refine ⟨rfl, ?_, ?_⟩
  · show (markCompleted p2.task).summaryContent = summary
    rw [htask]
    simp [markCompleted]
  · show p2.notifyCalls = s.notifyCalls + 2
    simpa [bump] using hnotif

/-! ### LLM client input budget (`NewClient` and the path decision of
`SummarizeChat`) -/

/-- `NewClient` from `internal/llm/client.go`:
`maxInputTokens = cfg.MaxTokens - 2000`, with no floor. -/
def newClientMaxInputTokens (maxTokens : Int) : Int := maxTokens - 2000

/-- Which branch `SummarizeChat` takes. -/
inductive SummarizePath
  | empty
  | single
  | chunked
deriving DecidableEq, Repr

/-- The branch decision of `SummarizeChat`: empty input returns at once; one
call when the estimated prompt fits the budget; otherwise the chunked
incremental path. -/
def summarizeChatPath (msgs : List ChatMessage) (maxInputTokens : Int) :
    SummarizePath :=
  if msgs = [] then SummarizePath.empty
  else if (estimateTokens (messagesToPromptText msgs) : Int) ≤ maxInputTokens
    then SummarizePath.single
  else SummarizePath.chunked

/-! ### Concrete inputs used by witnesses and counterexamples -/

/-- The apostrophe character (codepoint 39). -/
def apos : Char := Char.ofNat 39

/-- Accumulated result for the merger witnesses. -/
def c4acc : TopicsSummary :=
  ⟨[⟨"A", [⟨"X", "d1", [1]⟩]⟩]⟩

/-- Partial result for the merger witnesses: updates sender X, adds sender
Y to topic A, and adds topic B. -/
def c4par : TopicsSummary :=
  ⟨[⟨"A", [⟨"X", "d1x", [1, 2]⟩, ⟨"Y", "d2", [3]⟩]⟩,
    ⟨"B", [⟨"Z", "d3", [4]⟩]⟩]⟩

/-- A summary whose sender name contains an apostrophe. -/
def c6result : TopicsSummary :=
  ⟨[⟨"T", [⟨"it\x27s", "d", [26829]⟩]⟩]⟩

/-- A summary whose sender name contains a raw script tag. -/
def c6script : TopicsSummary :=
  ⟨[⟨"T", [⟨"<script>alert(1)</script>", "d", [26829]⟩]⟩]⟩

/-! ### The claims -/

/-- C3: for every message sequence and every token budget, the chunker is an
order-preserving partition — concatenating the chunks yields exactly the
input, with no loss and no duplication — and every chunk has estimated
rendered length (the sum of the per-line token estimates the Go loop
maintains) at most the budget or consists of exactly one message; empty
input yields an empty result. -/
theorem C3_chunker_partition (msgs : List ChatMessage) (k : Int) :
    (splitMessagesIntoChunks msgs k).flatten = msgs ∧
    (∀ c ∈ splitMessagesIntoChunks msgs k,
      (chunkTokens c : Int) ≤ k ∨ c.length = 1) ∧
    splitMessagesIntoChunks [] k = [] :=
  ⟨splitMessagesIntoChunks_flatten msgs k,
   fun c hc => (splitMessagesIntoChunks_chunks msgs k c hc).2,
   rfl⟩

/-- C7: the retention sweep deletes exactly the messages with
`sent_at < start_of_day_UTC(now - (retention_days + 1) days)`; every message
with `sent_at ≥ start_of_today_UTC - retention_days days` is kept, and the
kept rows are a sublist of the store (unchanged, in order). -/
theorem C7_retention_safety (now retentionDays : Int) (msgs : List Message) :
    cleanupMessages now retentionDays msgs =
      msgs.filter (fun m => !(decide (m.sentAt <
        startOfDayUTC now - (retentionDays + 1) * 86400))) ∧
    deleteBeforeDeleted msgs (retentionCutoff now retentionDays) =
      msgs.filter (fun m => decide (m.sentAt <
        startOfDayUTC now - (retentionDays + 1) * 86400)) ∧
    (∀ m ∈ msgs, startOfDayUTC now - retentionDays * 86400 ≤ m.sentAt →
      m ∈ cleanupMessages now retentionDays msgs) ∧
    (cleanupMessages now retentionDays msgs).Sublist msgs := by
  refine ⟨?_, ?_, ?_, ?_⟩
  · unfold cleanupMessages deleteBeforeKept
    rw [retentionCutoff_eq]
  · unfold deleteBeforeDeleted
    rw [retentionCutoff_eq]
  · intro m hm hge
    unfold cleanupMessages deleteBeforeKept
    rw [List.mem_filter]
    refine ⟨hm, ?_⟩
    rw [retentionCutoff_eq]
    simp only [Bool.not_eq_true', decide_eq_false_iff_not]
    omega
  · exact List.filter_sublist _

/-- C9 counterexample: the claimed 6000 floor does not exist in `NewClient`:
at the valid configuration `MaxTokens = 3000` the computed budget is 1000,
not `max(3000 - 2000, 6000) = 6000`. -/
theorem C9_counterexample :
    (0 : Int) < 3000 ∧
    newClientMaxInputTokens 3000 ≠ max ((3000 : Int) - 2000) 6000 := by
  decide

/-- C9 amended: for every configured `LLM.MaxTokens > 0` the input budget is
exactly `MaxTokens - 2000` (no floor; the 6000 fallback exists only in a
test helper), and this budget decides between the single-call path and the
chunked path of `SummarizeChat`. -/
theorem C9_budget_no_floor (maxTokens : Int) (h : 0 < maxTokens) :
    newClientMaxInputTokens maxTokens = maxTokens - 2000 ∧
    ∀ msgs : List ChatMessage, msgs ≠ [] →
      (summarizeChatPath msgs (newClientMaxInputTokens maxTokens) =
          SummarizePath.single ↔
        (estimateTokens (messagesToPromptText msgs) : Int) ≤
          maxTokens - 2000) := by
  refine ⟨rfl, ?_⟩
  intro msgs hne
  unfold summarizeChatPath newClientMaxInputTokens
  rw [if_neg hne]
  split <;> rename_i hcond
  · simp [hcond]
  · simp only [reduceCtorEq, false_iff]
    exact hcond

/-- C9 witness at `MaxTokens = 16000`. -/
theorem C9_budget_no_floor_witness :
    (0 : Int) < 16000 ∧
    (newClientMaxInputTokens 16000 = 16000 - 2000 ∧
    ∀ msgs : List ChatMessage, msgs ≠ [] →
      (summarizeChatPath msgs (newClientMaxInputTokens 16000) =
          SummarizePath.single ↔
        (estimateTokens (messagesToPromptText msgs) : Int) ≤
          16000 - 2000)) :=
  ⟨by decide, C9_budget_no_floor 16000 (by decide)⟩

/-- C10 counterexample: the estimator is not monotone in (byte) length
alone: the two-ideograph text is strictly shorter in bytes than the
seven-digit text yet gets a strictly larger estimate. -/
theorem C10_counterexample :
    byteLen "一一".data < byteLen "0000000".data ∧
    estimateTokens "0000000".data < estimateTokens "一一".data := by
  decide

/-- C10 amended: the token estimator is a pure function returning a
nonnegative count, monotone under extension (if `s` is a prefix of `t` then
`estimate s ≤ estimate t`) — monotone in mere length fails — and the result
is always at least the floor `byte_length / 4`. -/
theorem C10_estimator_monotone (s t : List Char) (h : ∃ u, t = s ++ u) :
    estimateTokens s ≤ estimateTokens t ∧
    byteLen t / 4 ≤ estimateTokens t ∧
    0 ≤ estimateTokens t := by
  obtain ⟨u, rfl⟩ := h
  exact ⟨estimateTokens_mono_append s u, estimateTokens_ge_floor _,
    Nat.zero_le _⟩

/-- C10 witness on a concrete prefix pair. -/
theorem C10_estimator_monotone_witness :
    (∃ u, "ab cd".data = "ab".data ++ u) ∧
    (estimateTokens "ab".data ≤ estimateTokens "ab cd".data ∧
    byteLen "ab cd".data / 4 ≤ estimateTokens "ab cd".data ∧
    0 ≤ estimateTokens "ab cd".data) :=
  ⟨⟨" cd".data, by decide⟩,
   C10_estimator_monotone "ab".data "ab cd".data ⟨" cd".data, by decide⟩⟩

/-- C1: for every task recovered at startup whose `summary_content` is
non-empty, the recovery step takes the delivery-only branch: the LLM
summarizer is never invoked under any cancellation schedule, and on a
crash-free recovery in which a delivery attempt succeeds, `summary_content`
is cleared and the task reaches status `completed`. -/
theorem C1_recovery_delivery_only (t : TaskRow) (h : t.summaryContent ≠ "")
    (ctx : Nat → Bool) (gen : List (Except String String)) (n1 n2 : Bool) :
    (recoverTaskStep ctx gen n1 n2 ⟨0, t, 0, 0⟩).llmCalls = 0 ∧
    (n1 = true ∨ n2 = true →
      (recoverTaskStep noCancel gen n1 n2 ⟨0, t, 0, 0⟩).task.summaryContent
        = "" ∧
      (recoverTaskStep noCancel gen n1 n2 ⟨0, t, 0, 0⟩).task.status =
        TaskStatus.completed) := by
  constructor
  · exact recoverTaskStep_llm ctx gen n1 n2 ⟨0, t, 0, 0⟩ h
  · intro hsent
    exact recoverTaskStep_noCancel_sent gen n1 n2 hsent ⟨0, t, 0, 0⟩ h

/-- C1 witness: a processing task with pending summary content, delivery
succeeding on the first attempt. -/
theorem C1_recovery_delivery_only_witness :
    (⟨TaskStatus.processing, "S", none⟩ : TaskRow).summaryContent ≠ "" ∧
    ((recoverTaskStep noCancel [] true false
        ⟨0, ⟨TaskStatus.processing, "S", none⟩, 0, 0⟩).llmCalls = 0 ∧
    (true = true ∨ false = true →
      (recoverTaskStep noCancel [] true false
        ⟨0, ⟨TaskStatus.processing, "S", none⟩, 0, 0⟩).task.summaryContent
        = "" ∧
      (recoverTaskStep noCancel [] true false
        ⟨0, ⟨TaskStatus.processing, "S", none⟩, 0, 0⟩).task.status =
        TaskStatus.completed)) :=
  ⟨by decide,
   C1_recovery_delivery_only ⟨TaskStatus.processing, "S", none⟩ (by decide)
     noCancel [] true false⟩

/-- C2: when Phase A yields a non-empty rendered summary and all delivery
attempts (the fixed two) fail without cancellation, `processTask` returns
success for every start state, the daily-run caller marks the task
completed (not failed), `summary_content` retains the summary for a later
delivery-only retry, and exactly two notifier calls were made. -/
theorem C2_delivery_failure_still_success (t : TaskRow)
    (gen : List (Except String String)) (summary : String)
    (hgen : firstResult gen = Except.ok summary) (hne : summary ≠ "") :
    (∀ s : ExecSt, (processTask noCancel gen false false s).1 = none) ∧
    (runTaskFromDaily noCancel gen false false ⟨0, t, 0, 0⟩).task.status =
      TaskStatus.completed ∧
    (runTaskFromDaily noCancel gen false false
      ⟨0, t, 0, 0⟩).task.summaryContent = summary ∧
    (runTaskFromDaily noCancel gen false false ⟨0, t, 0, 0⟩).notifyCalls
      = 2 := by
  have hrun := runTaskFromDaily_deliveryFail gen summary hgen hne ⟨0, t, 0, 0⟩
  exact ⟨fun s => (processTask_noCancel_ok_ff gen summary hgen hne s).1,
    hrun.1, hrun.2.1, by simpa using hrun.2.2⟩

/-- C2 witness: one successful summarize attempt, two failed deliveries. -/
theorem C2_delivery_failure_still_success_witness :
    firstResult [Except.ok "S"] = Except.ok "S" ∧ ("S" : String) ≠ "" ∧
    ((∀ s : ExecSt,
      (processTask noCancel [Except.ok "S"] false false s).1 = none) ∧
    (runTaskFromDaily noCancel [Except.ok "S"] false false
      ⟨0, ⟨TaskStatus.pending, "", none⟩, 0, 0⟩).task.status =
      TaskStatus.completed ∧
    (runTaskFromDaily noCancel [Except.ok "S"] false false
      ⟨0, ⟨TaskStatus.pending, "", none⟩, 0, 0⟩).task.summaryContent = "S" ∧
    (runTaskFromDaily noCancel [Except.ok "S"] false false
      ⟨0, ⟨TaskStatus.pending, "", none⟩, 0, 0⟩).notifyCalls = 2) :=
  ⟨rfl, by decide,
   C2_delivery_failure_still_success ⟨TaskStatus.pending, "", none⟩
     [Except.ok "S"] "S" rfl (by decide)⟩

/-- C8: under a monotone cancellation signal, whenever `processTask`
(invoked by the daily-run caller after the task was set `processing`)
returns the cancelled error, the caller's `MarkTaskFailed` write itself
fails on the cancelled context, so the durable status remains `processing`
— never `failed` — and the recovery query (pending-or-processing) re-picks
the task at next start; moreover if the signal has fired by the time the
phases start, `processTask` does return the cancelled error. -/
theorem C8_cancellation_nonterminal (ctx : Nat → Bool) (hm : CtxMono ctx)
    (gen : List (Except String String)) (hgen : gen ≠ []) (n1 n2 : Bool)
    (s : ExecSt) :
    (∀ s1 p,
      dbUpdate ctx (fun t => { t with status := TaskStatus.processing }) s =
        (true, s1) →
      processTask ctx gen n1 n2 s1 = p →
      p.1 = some SchedErr.cancelled →
      (runTaskFromDaily ctx gen n1 n2 s).task.status =
        TaskStatus.processing ∧
      ∀ rows : List TaskRow,
        (runTaskFromDaily ctx gen n1 n2 s).task ∈ rows →
        (runTaskFromDaily ctx gen n1 n2 s).task ∈
          getPendingOrProcessingTasks rows) ∧
    (ctx s.step = true →
      (processTask ctx gen n1 n2 s).1 = some SchedErr.cancelled) := by
  constructor
  · intro s1 p hdb hp hcan
    obtain ⟨perr, p2⟩ := p
    obtain rfl : perr = some SchedErr.cancelled := hcan
    have hs1 : s1.task.status = TaskStatus.processing := by
      unfold dbUpdate at hdb
      split at hdb
      · exact absurd hdb (by simp)
      · injection hdb with h1 h2
        rw [← h2]
        rfl
    have hstat : p2.task.status = TaskStatus.processing := by
      have hps := processTask_status ctx gen n1 n2 s1
      rw [hp] at hps
      exact hps.trans hs1
    have hcstep : ctx p2.step = true :=
      processTask_cancelled hm gen n1 n2 s1 (some SchedErr.cancelled, p2)
        hp rfl
    have hrun : runTaskFromDaily ctx gen n1 n2 s =
        (dbUpdate ctx (markFailed SchedErr.cancelled) p2).2 := by
      unfold runTaskFromDaily
      rw [hdb]
      dsimp only
      rw [hp]
    have hfail : (dbUpdate ctx (markFailed SchedErr.cancelled) p2).2 =
        bump p2 := by
      unfold dbUpdate
      rw [if_pos hcstep]
    rw [hrun, hfail]
    constructor
    · exact hstat
    · intro rows hmem
      unfold getPendingOrProcessingTasks
      apply List.mem_filter.mpr
      refine ⟨hmem, ?_⟩
      simp only [decide_eq_true_eq]
      right
      exact hstat
  · intro hc
    exact processTask_cancel_at_entry ctx gen hgen n1 n2 s hc

/-- C8 witness: the signal fired before the task ran; one failing summarize
attempt would otherwise occur. -/
theorem C8_cancellation_nonterminal_witness :
    CtxMono (fun _ => true) ∧
    ([Except.error "x"] : List (Except String String)) ≠ [] ∧
    ((∀ s1 p,
      dbUpdate (fun _ => true)
        (fun t => { t with status := TaskStatus.processing })
        ⟨0, ⟨TaskStatus.processing, "", none⟩, 0, 0⟩ = (true, s1) →
      processTask (fun _ => true) [Except.error "x"] false false s1 = p →
      p.1 = some SchedErr.cancelled →
      (runTaskFromDaily (fun _ => true) [Except.error "x"] false false
        ⟨0, ⟨TaskStatus.processing, "", none⟩, 0, 0⟩).task.status =
        TaskStatus.processing ∧
      ∀ rows : List TaskRow,
        (runTaskFromDaily (fun _ => true) [Except.error "x"] false false
          ⟨0, ⟨TaskStatus.processing, "", none⟩, 0, 0⟩).task ∈ rows →
        (runTaskFromDaily (fun _ => true) [Except.error "x"] false false
          ⟨0, ⟨TaskStatus.processing, "", none⟩, 0, 0⟩).task ∈
          getPendingOrProcessingTasks rows) ∧
    ((fun _ => true : Nat → Bool)
        (⟨0, ⟨TaskStatus.processing, "", none⟩, 0, 0⟩ : ExecSt).step = true →
      (processTask (fun _ => true) [Except.error "x"] false false
        ⟨0, ⟨TaskStatus.processing, "", none⟩, 0, 0⟩).1 =
        some SchedErr.cancelled)) :=
  ⟨fun i j hij h => h, List.cons_ne_nil _ _,
   C8_cancellation_nonterminal (fun _ => true) (fun i j hij h => h)
     [Except.error "x"] (List.cons_ne_nil _ _) false false
     ⟨0, ⟨TaskStatus.processing, "", none⟩, 0, 0⟩⟩

/-- C4: on inputs satisfying the data-model invariants (duplicate-free
topic titles, duplicate-free sender names within each topic), every topic
title of the accumulated result survives the merge; for each (title,
sender) pair present in both, the merged item carries the partial result's
description and the union of the id lists with the prior ids first and the
new ids following in their order; topics and senders absent from the
accumulated result are appended at the end. -/
theorem C4_merger_preservation (acc par : TopicsSummary)
    (hat : (titlesOf acc).Nodup) (hpt : (titlesOf par).Nodup)
    (has : ∀ t ∈ acc.topics, (sendersOf t).Nodup)
    (hps : ∀ t ∈ par.topics, (sendersOf t).Nodup) :
    (∀ t ∈ acc.topics, ∃ t' ∈ (mergeTopicsCore acc par).topics,
      t'.title = t.title) ∧
    (∀ tA ∈ acc.topics, ∀ tP ∈ par.topics, tA.title = tP.title →
      ∀ iA ∈ tA.items, ∀ iP ∈ tP.items, iA.senderName = iP.senderName →
      ∃ tM ∈ (mergeTopicsCore acc par).topics, tM.title = tA.title ∧
        ∃ iM ∈ tM.items, iM.senderName = iA.senderName ∧
          iM.description = iP.description ∧
          iM.messageIDs = mergeMessageIDs iA.messageIDs iP.messageIDs ∧
          (∀ x : Int, x ∈ iM.messageIDs ↔
            x ∈ iA.messageIDs ∨ x ∈ iP.messageIDs) ∧
          (iA.messageIDs.Nodup → iP.messageIDs.Nodup →
            iM.messageIDs = iA.messageIDs ++
              iP.messageIDs.filter (fun x => decide (x ∉ iA.messageIDs)))) ∧
    (mergeTopicsCore acc par).topics =
      acc.topics.map (updBy (fun t => t.title) mergeTopicItems par.topics) ++
      par.topics.filter
        (fun pt => !(acc.topics.any (fun t => decide (t.title = pt.title))))
    := by
  have hchar := mergeTopicsCore_topics acc par hat hpt
  refine ⟨?_, ?_, ?_⟩
  · intro t ht
    refine ⟨updBy (fun t => t.title) mergeTopicItems par.topics t, ?_,
      updBy_title par.topics t⟩
    rw [hchar]
    exact List.mem_append_left _ (List.mem_map_of_mem _ ht)
  · intro tA htA tP htP htitle iA hiA iP hiP hsender
    have hfind : par.topics.find? (fun n => decide (n.title = tA.title)) =
        some tP :=
      find?_key_unique (fun t => t.title)
        (show (par.topics.map (fun t => t.title)).Nodup from hpt) htP
        htitle.symm
    have htM : updBy (fun t => t.title) mergeTopicItems par.topics tA =
        mergeTopicItems tA tP := by
      unfold updBy
      rw [hfind]
    refine ⟨updBy (fun t => t.title) mergeTopicItems par.topics tA, ?_,
      updBy_title par.topics tA, ?_⟩
    · rw [hchar]
      exact List.mem_append_left _ (List.mem_map_of_mem _ htA)
    · rw [htM]
      have hitems := mergeTopicItems_items tA tP (has tA htA) (hps tP htP)
      have hfindI : tP.items.find?
          (fun n => decide (n.senderName = iA.senderName)) = some iP :=
        find?_key_unique (fun i => i.senderName)
          (show (tP.items.map (fun i => i.senderName)).Nodup from hps tP htP)
          hiP hsender.symm
      have hiM : updBy (fun i => i.senderName) mergeSub tP.items iA =
          mergeSub iA iP := by
        unfold updBy
        rw [hfindI]
      refine ⟨mergeSub iA iP, ?_, ?_, rfl, rfl, ?_, ?_⟩
      · rw [hitems]
        apply List.mem_append_left
        rw [← hiM]
        exact List.mem_map_of_mem _ hiA
      · show iP.senderName = iA.senderName
        exact hsender.symm
      · exact fun x => mergeMessageIDs_mem iA.messageIDs iP.messageIDs x
      · exact fun hA hB => mergeMessageIDs_nodup_eq _ _ hA hB
  · rw [hchar]
    rfl

/-- C4 witness: one shared topic with a shared sender and a fresh sender,
plus a fresh topic. -/
theorem C4_merger_preservation_witness :
    (titlesOf c4acc).Nodup ∧ (titlesOf c4par).Nodup ∧
    (∀ t ∈ c4acc.topics, (sendersOf t).Nodup) ∧
    (∀ t ∈ c4par.topics, (sendersOf t).Nodup) ∧
    ((∀ t ∈ c4acc.topics, ∃ t' ∈ (mergeTopicsCore c4acc c4par).topics,
      t'.title = t.title) ∧
    (∀ tA ∈ c4acc.topics, ∀ tP ∈ c4par.topics, tA.title = tP.title →
      ∀ iA ∈ tA.items, ∀ iP ∈ tP.items, iA.senderName = iP.senderName →
      ∃ tM ∈ (mergeTopicsCore c4acc c4par).topics, tM.title = tA.title ∧
        ∃ iM ∈ tM.items, iM.senderName = iA.senderName ∧
          iM.description = iP.description ∧
          iM.messageIDs = mergeMessageIDs iA.messageIDs iP.messageIDs ∧
          (∀ x : Int, x ∈ iM.messageIDs ↔
            x ∈ iA.messageIDs ∨ x ∈ iP.messageIDs) ∧
          (iA.messageIDs.Nodup → iP.messageIDs.Nodup →
            iM.messageIDs = iA.messageIDs ++
              iP.messageIDs.filter (fun x => decide (x ∉ iA.messageIDs)))) ∧
    (mergeTopicsCore c4acc c4par).topics =
      c4acc.topics.map
        (updBy (fun t => t.title) mergeTopicItems c4par.topics) ++
      c4par.topics.filter
        (fun pt => !(c4acc.topics.any (fun t => decide (t.title = pt.title))))) :=
  ⟨by decide, by decide, by decide, by decide,
   C4_merger_preservation c4acc c4par (by decide) (by decide) (by decide)
     (by decide)⟩

/-- C5 counterexample: merging an empty accumulated result with a partial
result that repeats a new title yields duplicate titles, violating the
invariant as stated for arbitrary inputs. -/
theorem C5_counterexample :
    ¬ (titlesOf (mergeTopicsCore ⟨[]⟩
      ⟨[⟨"A", []⟩, ⟨"A", []⟩]⟩)).Nodup := by
  decide

/-- C5 amended: if the accumulated and the partial result each carry
duplicate-free topic titles, then the merged result's topic titles are
duplicate-free. -/
theorem C5_merge_title_unique (acc par : TopicsSummary)
    (hat : (titlesOf acc).Nodup) (hpt : (titlesOf par).Nodup) :
    (titlesOf (mergeTopicsCore acc par)).Nodup := by
  have hchar := mergeTopicsCore_topics acc par hat hpt
  unfold titlesOf
  rw [hchar, List.map_append, List.nodup_append]
  have hmap : (acc.topics.map
      (updBy (fun t => t.title) mergeTopicItems par.topics)).map
        (fun t => t.title) = acc.topics.map (fun t => t.title) := by
    rw [List.map_map]
    apply List.map_congr_left
    intro t ht
    exact updBy_title par.topics t
  refine ⟨?_, ?_, ?_⟩
  · rw [hmap]
    exact hat
  · have hsub : (appendedOf (fun t => t.title) acc.topics par.topics).Sublist
        par.topics := List.filter_sublist _
    exact List.Nodup.sublist (hsub.map _) hpt
  · intro x hx1 hx2
    rw [hmap] at hx1
    rw [List.mem_map] at hx2
    obtain ⟨pt, hpt2, rfl⟩ := hx2
    unfold appendedOf at hpt2
    rw [List.mem_filter] at hpt2
    obtain ⟨hptmem, hcond⟩ := hpt2
    rw [List.mem_map] at hx1
    obtain ⟨t, htmem, hteq⟩ := hx1
    rw [Bool.not_eq_true', List.any_eq_false] at hcond
    exact absurd (by simpa using hteq) (by simpa using hcond t htmem)

/-- C5 witness: distinct-titled inputs stay distinct after merge. -/
theorem C5_merge_title_unique_witness :
    (titlesOf c4acc).Nodup ∧ (titlesOf c4par).Nodup ∧
    (titlesOf (mergeTopicsCore c4acc c4par)).Nodup :=
  ⟨by decide, by decide,
   C5_merge_title_unique c4acc c4par (by decide) (by decide)⟩

/-- C6 counterexample: the source escapes only the four characters amp, lt,
gt and double quote; an apostrophe (the fifth character the claim lists) in
a sender name reaches the formatted display output unescaped. -/
theorem C6_counterexample :
    escapeHTML [apos] = [apos] ∧
    apos ∈ FormatSummaryForDisplay (some c6result) (-1001427755127)
      "2025-02-10".data "2025-02-10".data := by
  constructor
  · rfl
  · decide

/-- C6 amended: user-derived strings are escaped for the four HTML
characters amp, lt, gt, double quote — amp first — not five (the apostrophe
passes through); in particular the formatted output never contains the
substring of the script tag opener, whatever the topic titles, sender
names, descriptions, dates and chat id are. -/
theorem C6_no_script_injection (result : Option TopicsSummary)
    (chatID : Int) (startDate endDate : List Char) :
    escapeHTML "&<>\"".data = "&amp;&lt;&gt;&quot;".data ∧
    ¬ "<script".data <:+:
      FormatSummaryForDisplay result chatID startDate endDate :=
  ⟨rfl, ltOkB_not_infix (ltOkB_format result chatID startDate endDate)⟩

/-- C6 amended witness at a sender name containing a raw script tag. -/
theorem C6_no_script_injection_witness :
    escapeHTML "&<>\"".data = "&amp;&lt;&gt;&quot;".data ∧
    ¬ "<script".data <:+:
      FormatSummaryForDisplay (some c6script) (-1001427755127)
        "2025-02-10".data "2025-02-10".data :=
  C6_no_script_injection (some c6script) (-1001427755127)
    "2025-02-10".data "2025-02-10".data

end TalkTrace
